import Mathlib

/-!
# uart-logger: the variadic rendering engine and its stock renderers

A shallow embedding of `src/uart_logger.h`, `src/uart_logger.cpp`,
`src/shims/itoa_shim.h` and `src/mocks/uart_mockable.h`.

The transport is write-only, so every printing function is embedded as the text
it sends to the transport, in order: a C++ statement sequence `a; b; c;` of
printing calls becomes `a ++ b ++ c`.  A C string is a `String` (the bytes
before the terminator); a C `int` is an `Int`, converted with an explicit
`% 2 ^ 32` wherever the source reinterprets it as unsigned.

The numeric helpers pass a `char buf[10]` to `itoa` and print it back.  They
are embedded twice.  `uprint_helper` is the text a helper prints when the bytes
`itoa` stores stay inside the buffer.  `uprint_helper_buf` accounts for the
buffer: it is `none` where `itoa` stores more than `buf_size` bytes, which the
source leaves without defined behaviour, and otherwise it is that text.
-/

namespace Uprint

/-! ## Transport (`src/mocks/uart_mockable.h`) -/

/-- The mock `uart_putc`: appends one byte to the output stream. -/
def uart_putc (data : Char) : String := String.singleton data

/-- The mock `uart_puts`: appends a C string to the output stream. -/
def uart_puts (s : String) : String := s

/-! ## Numeric conversion (`src/shims/itoa_shim.h`) -/

/-- Digit character of the C library conversions: `0`-`9`, then `A`-`F`. -/
def digit_char (d : Nat) : Char :=
  if d < 10 then Char.ofNat ('0'.toNat + d) else Char.ofNat ('A'.toNat + (d - 10))

/-- Digit loop of the C library integer conversions: the digits of `n` in
`base`, most significant first, pushed in front of `acc`.  The first argument
bounds the number of digits produced. -/
def to_digits_core (base : Nat) : Nat → Nat → List Char → List Char
  | 0, _, acc => acc
  | fuel + 1, n, acc =>
    if n / base = 0 then digit_char (n % base) :: acc
    else to_digits_core base fuel (n / base) (digit_char (n % base) :: acc)

/-- Digits of `n` in `base`, most significant first (`n + 1` digits always suffice). -/
def to_digits (base : Nat) (n : Nat) : List Char :=
  to_digits_core base (n + 1) n []

/-- The C library call `sprintf(s, "%d", val)`: signed decimal. -/
def sprintf_d (val : Int) : String :=
  if val < 0 then String.mk ('-' :: to_digits 10 (-val).toNat)
  else String.mk (to_digits 10 val.toNat)

/-- The C library call `sprintf(s, "%X", val)`: the argument is read as an
`unsigned int` and written in uppercase hexadecimal. -/
def sprintf_X (val : Int) : String :=
  String.mk (to_digits 16 (val % 2 ^ 32).toNat)

/-- The call `std::bitset<N>(val).to_string()`: `N` characters, the character
at position `0` is bit `N - 1` of `val`. -/
def bitset_to_string : Nat → Nat → List Char
  | 0, _ => []
  | N + 1, val => (if val.testBit N then '1' else '0') :: bitset_to_string N val

/-- The call `std::string::find_first_not_of(c)`; `none` stands for `npos`. -/
def find_first_not_of (s : List Char) (c : Char) : Option Nat :=
  let pos := s.findIdx (fun x => x != c)
  if pos < s.length then some pos else none

/-- The call `std::string::erase(0, len)`; the length `npos` erases everything. -/
def erase_front (s : List Char) : Option Nat → List Char
  | some len => s.drop len
  | none => []

/-- The shim `itoa(val, s, radix)`: the C string left in `s`, or `none` when the
`assert(false)` of the default case fires.  In the radix 2 case the `int` is
first converted to the `unsigned long long` that `std::bitset<32>` takes. -/
def itoa (val : Int) (radix : Int) : Option String :=
  if radix = 2 then
    let binary := bitset_to_string 32 (val % 2 ^ 64).toNat
    let binary := erase_front binary (find_first_not_of binary '0')
    if binary.isEmpty then some "0" else some (String.mk binary)
  else if radix = 10 then some (sprintf_d val)
  else if radix = 16 then some (sprintf_X val)
  else none

/-- The library routine `ultoa(val, s, radix)` for unsigned values.  The shim
does not define it; the only caller uses radix 10, where it yields the decimal
digits. -/
def ultoa (val : Nat) (radix : Nat) : String :=
  String.mk (to_digits radix val)

/-! ## Values and their helpers (`src/uart_logger.h`) -/

/-- The struct `Hex`; `length` defaults to `-1`. -/
structure Hex where
  i : Int
  length : Int := -1

/-- The struct `Binary`; `length` defaults to `-1`. -/
structure Binary where
  i : Int
  length : Int := -1

/-- The argument types for which the header declares a `uprint_helper` overload. -/
inductive Value where
  | cstr (cstr : String)
  | int (i : Int)
  | bool (b : Bool)
  | uint32 (ul : Nat)
  | char (c : Char)
  | hex (value : Hex)
  | binary (value : Binary)
  | units (value : Value) (label : String)

/-- The factory `hex(i, length = -1)`. -/
def hex (i : Int) (length : Int := -1) : Value := Value.hex { i := i, length := length }

/-- The factory `binary(i, length = -1)`. -/
def binary (i : Int) (length : Int := -1) : Value := Value.binary { i := i, length := length }

/-- The factory `units(value, label)`. -/
def units (value : Value) (label : String) : Value := Value.units value label

/-- The size of the `char buf[10]` of the `int`, `uint32_t`, `Hex` and `Binary`
helpers. -/
def buf_size : Nat := 10

/-- The bytes that `strcpy` and `sprintf` store through `s` for a text: its
characters and the one-byte terminator. -/
def bytes_written (text : String) : Nat := text.length + 1

/-- The statements `char buf[10]; itoa(val, buf, radix); uart_puts(buf);` of a
numeric helper, with the buffer: the text printed, or `none` where the source
has no defined behaviour, because `itoa` stores more than `buf_size` bytes
through `buf` or stops in its assertion. -/
def uart_puts_itoa_buf (val : Int) (radix : Int) : Option String :=
  match itoa val radix with
  | some text => if bytes_written text ≤ buf_size then some (uart_puts text) else none
  | none => none

/-- The text that the statements `itoa(val, buf, radix); uart_puts(buf);` of a
numeric helper print when the bytes `itoa` stores stay inside `buf`; whether
they do is what `uart_puts_itoa_buf` decides.  An unsupported radix stops the
program in the assertion before anything is printed. -/
def uart_puts_itoa (val : Int) (radix : Int) : String :=
  match itoa val radix with
  | some buf => uart_puts buf
  | none => ""

/-- The overload `uprint_helper(const char *cstr)`. -/
def uprint_helper_cstr (cstr : String) : String := uart_puts cstr

/-- The overload set `uprint_helper`, one case per overload, as the text each
helper prints when its stores stay inside its buffer; the call
`uprint_helper(value.label)` of the `Units` overload resolves to the
`const char *` overload. -/
def uprint_helper : Value → String
  | .cstr cstr => uprint_helper_cstr cstr
  | .int i => uart_puts_itoa i 10
  | .bool b => if b then uart_puts "true" else uart_puts "false"
  | .uint32 ul => uart_puts (ultoa ul 10)
  | .char c => uart_putc c
  | .hex value => uart_puts_itoa value.i 16
  | .binary value => uart_puts_itoa value.i 2
  | .units value label => uprint_helper value ++ uprint_helper_cstr label

/-- The overload set `uprint_helper`, one case per overload, with the
`char buf[10]` of the numeric helpers: the text printed, or `none` where a
helper stores past its buffer. -/
def uprint_helper_buf : Value → Option String
  | .cstr cstr => some (uprint_helper_cstr cstr)
  | .int i => uart_puts_itoa_buf i 10
  | .bool b => some (if b then uart_puts "true" else uart_puts "false")
  | .uint32 ul =>
    if bytes_written (ultoa ul 10) ≤ buf_size then some (uart_puts (ultoa ul 10)) else none
  | .char c => some (uart_putc c)
  | .hex value => uart_puts_itoa_buf value.i 16
  | .binary value => uart_puts_itoa_buf value.i 2
  | .units value label =>
    match uprint_helper_buf value with
    | some text => some (text ++ uprint_helper_cstr label)
    | none => none

/-! ## Tokens and the engine -/

/-- The wrapper `Unspaced<T>`. -/
structure Unspaced (T : Type) where
  held : T

/-- One call argument: a bare value, or a value wrapped in `Unspaced`. -/
inductive Token (T : Type) where
  | spaceable (value : T)
  | unspaced (u : Unspaced T)

/-- The factory `unspaced(held)`. -/
def unspaced {T : Type} (held : T) : Token T := Token.unspaced { held := held }

/-- The global `nospace`. -/
def nospace : Token Value := Token.unspaced { held := Value.cstr "" }

/-- The global `comma`. -/
def comma : Token Value := Token.unspaced { held := Value.cstr ", " }

namespace UartLogger

/-- The overload set `UartLogger::operator()`, one equation per overload, in
the order SSX, SUX, USX, UUX, S, U, 0.  The helper found by overload resolution
at each call site is the parameter `uprint_helper`, so that the engine is
embedded for every set of helpers, the stock one and any a consumer adds. -/
def operator_call {T : Type} (uprint_helper : T → String) : List (Token T) → String
  | .spaceable first :: .spaceable second :: args =>
      uprint_helper first ++ uart_putc ' '
        ++ operator_call uprint_helper (.spaceable second :: args)
  | .spaceable first :: .unspaced second :: args =>
      uprint_helper first ++ uprint_helper second.held
        ++ operator_call uprint_helper args
  | .unspaced first :: .spaceable second :: args =>
      uprint_helper first.held
        ++ operator_call uprint_helper (.spaceable second :: args)
  | .unspaced first :: .unspaced second :: args =>
      uprint_helper first.held ++ uprint_helper second.held
        ++ operator_call uprint_helper args
  | [.spaceable first] => uprint_helper first ++ uart_putc '\n'
  | [.unspaced first] => uprint_helper first.held ++ uart_putc '\n'
  | [] => uart_putc '\n'

end UartLogger

/-- The global engine instance `uprint`, applied to the stock helpers. -/
def uprint (args : List (Token Value)) : String :=
  UartLogger.operator_call uprint_helper args

/-! ## The spacing rule, as the specification words it -/

/-- The tag of a token: `true` for a bare (Spaceable) argument. -/
def Token.is_spaceable {T : Type} : Token T → Bool
  | .spaceable _ => true
  | .unspaced _ => false

/-- The text of a token: the helper applied to its value (for an `Unspaced`
token, to the held value). -/
def Token.render {T : Type} (uprint_helper : T → String) : Token T → String
  | .spaceable value => uprint_helper value
  | .unspaced u => uprint_helper u.held

/-- The separator between two neighbours: one space when both are Spaceable,
nothing otherwise. -/
def separator {T : Type} (a b : Token T) : String :=
  if a.is_spaceable && b.is_spaceable then " " else ""

/-- The renderings of `t1 .. tn` with the separator between each consecutive
pair, and nothing after the last one. -/
def spaced {T : Type} (uprint_helper : T → String) : List (Token T) → String
  | [] => ""
  | [t] => t.render uprint_helper
  | t :: t' :: rest =>
      t.render uprint_helper ++ separator t t' ++ spaced uprint_helper (t' :: rest)

/-- One round of the linear loop on the state (text so far, `needs_space`):
emit a space if `needs_space` and the token is Spaceable, emit the rendering,
set `needs_space` to the token's tag. -/
def needs_space_step {T : Type} (uprint_helper : T → String)
    (st : String × Bool) (t : Token T) : String × Bool :=
  ((if st.2 && t.is_spaceable then st.1 ++ " " else st.1) ++ t.render uprint_helper,
    t.is_spaceable)

/-- The linear `needs_space` loop: start with no text and the flag false, run
one round per token, then emit the terminator. -/
def needs_space_loop {T : Type} (uprint_helper : T → String) (ts : List (Token T)) : String :=
  (ts.foldl (needs_space_step uprint_helper) ("", false)).1 ++ "\n"

/-- The line body: an output without its last character. -/
def body (out : String) : String := String.mk out.data.dropLast

/-- The separator a token gets after it, given the tokens that follow. -/
def gap {T : Type} (t : Token T) : List (Token T) → String
  | [] => ""
  | t' :: _ => separator t t'

/-- The value of a digit character: `0`-`9` are 0..9, `A`-`F` are 10..15. -/
def digit_value (c : Char) : Nat :=
  if c.isDigit then c.toNat - '0'.toNat else c.toNat - 'A'.toNat + 10

/-- Reading a text as a number written in `base`, most significant digit first. -/
def parse_base (base : Nat) (s : String) : Nat :=
  s.data.foldl (fun acc c => acc * base + digit_value c) 0

/-- Reading a text as a signed decimal number: an optional leading `-`, then
decimal digits. -/
def parse_signed_decimal (s : String) : Int :=
  match s.data with
  | '-' :: ds => -(parse_base 10 (String.mk ds) : Int)
  | _ => (parse_base 10 s : Int)

/-! ## Lemmas on the engine -/

theorem operator_call_unspaced_cons {T : Type} (h : T → String) (u : Unspaced T)
    (rest : List (Token T)) :
    UartLogger.operator_call h (.unspaced u :: rest)
      = h u.held ++ UartLogger.operator_call h rest := by
  induction rest generalizing u with
  | nil => rfl
  | cons t rest ih =>
    cases t with
    | spaceable v => rfl
    | unspaced w =>
      rw [UartLogger.operator_call, ih w, String.append_assoc]

theorem operator_call_cons {T : Type} (h : T → String) (t : Token T)
    (rest : List (Token T)) :
    UartLogger.operator_call h (t :: rest)
      = t.render h ++ gap t rest ++ UartLogger.operator_call h rest := by
  cases t with
  | unspaced u =>
    rw [operator_call_unspaced_cons]
    cases rest <;> simp [Token.render, gap, separator, Token.is_spaceable]
  | spaceable v =>
    cases rest with
    | nil => simp [UartLogger.operator_call, Token.render, gap]
    | cons t' rest =>
      cases t' with
      | spaceable v' =>
        simp [UartLogger.operator_call, Token.render, gap, separator, Token.is_spaceable,
          uart_putc]
        rfl
      | unspaced u' =>
        rw [operator_call_unspaced_cons]
        simp [UartLogger.operator_call, Token.render, gap, separator, Token.is_spaceable,
          String.append_assoc]

theorem spaced_cons {T : Type} (h : T → String) (t : Token T) (rest : List (Token T)) :
    spaced h (t :: rest) = t.render h ++ gap t rest ++ spaced h rest := by
  cases rest <;> simp [spaced, gap]

theorem operator_call_eq_spaced {T : Type} (h : T → String) (ts : List (Token T)) :
    UartLogger.operator_call h ts = spaced h ts ++ "\n" := by
  induction ts with
  | nil => rfl
  | cons t rest ih =>
    rw [operator_call_cons, spaced_cons, ih]
    simp only [String.append_assoc]

theorem body_append_newline (s : String) : body (s ++ "\n") = s := by
  simp [body, String.data_append]

theorem spaced_unspaced_between {T : Type} (h : T → String) (xs : List (Token T))
    (u : Unspaced T) (ys : List (Token T)) :
    spaced h (xs ++ .unspaced u :: ys) = spaced h xs ++ h u.held ++ spaced h ys := by
  induction xs with
  | nil =>
    rw [List.nil_append, spaced_cons]
    cases ys <;> simp [spaced, gap, separator, Token.is_spaceable, Token.render]
  | cons x xs ih =>
    rw [List.cons_append, spaced_cons, spaced_cons, ih]
    have hgap : gap x (xs ++ .unspaced u :: ys) = gap x xs := by
      cases xs <;> cases x <;> simp [gap, separator, Token.is_spaceable]
    rw [hgap]
    simp only [String.append_assoc]

theorem needs_space_foldl {T : Type} (h : T → String) (ts : List (Token T))
    (out : String) (b : Bool) :
    (ts.foldl (needs_space_step h) (out, b)).1 ++ "\n"
      = out ++ (if b && (ts.head?.map Token.is_spaceable).getD false then " " else "")
          ++ UartLogger.operator_call h ts := by
  induction ts generalizing out b with
  | nil => simp [UartLogger.operator_call, uart_putc]; rfl
  | cons t rest ih =>
    rw [List.foldl_cons, needs_space_step, ih, operator_call_cons]
    have hgap : (if t.is_spaceable && (rest.head?.map Token.is_spaceable).getD false
        then " " else "") = gap t rest := by
      cases rest <;> simp [gap, separator]
    rw [hgap]
    cases b <;> cases hs : t.is_spaceable <;> simp [hs, String.append_assoc]

theorem intercalate_go_append (x acc s : String) (l : List String) :
    String.intercalate.go (x ++ acc) s l = x ++ String.intercalate.go acc s l := by
  induction l generalizing acc with
  | nil => rfl
  | cons a l ih =>
    simp only [String.intercalate.go]
    rw [String.append_assoc, String.append_assoc, ih, String.append_assoc]

theorem intercalate_cons_cons (s a b : String) (l : List String) :
    s.intercalate (a :: b :: l) = a ++ s ++ s.intercalate (b :: l) := by
  simp only [String.intercalate, String.intercalate.go]
  rw [intercalate_go_append]

theorem spaced_all_spaceable {T : Type} (h : T → String) (ts : List (Token T))
    (hall : ∀ t ∈ ts, t.is_spaceable = true) :
    spaced h ts = " ".intercalate (ts.map (Token.render h)) := by
  induction ts with
  | nil => rfl
  | cons t rest ih =>
    cases rest with
    | nil => rfl
    | cons t' rest =>
      have h1 : t.is_spaceable = true := hall t (by simp)
      have h2 : t'.is_spaceable = true := hall t' (by simp)
      have ih' := ih (fun x hx => hall x (List.mem_cons_of_mem _ hx))
      rw [spaced, ih']
      simp only [List.map_cons, intercalate_cons_cons, separator, h1, h2]
      simp

theorem join_foldl_append (acc : String) (l : List String) :
    List.foldl (fun r s => r ++ s) acc l = acc ++ List.foldl (fun r s => r ++ s) "" l := by
  induction l generalizing acc with
  | nil => simp
  | cons a l ih =>
    rw [List.foldl_cons, List.foldl_cons, ih, ih ("" ++ a)]
    simp [String.append_assoc]

theorem join_cons (a : String) (l : List String) :
    String.join (a :: l) = a ++ String.join l := by
  simp only [String.join, List.foldl_cons]
  rw [join_foldl_append]
  simp

theorem spaced_all_unspaced {T : Type} (h : T → String) (ts : List (Token T))
    (hall : ∀ t ∈ ts, t.is_spaceable = false) :
    spaced h ts = String.join (ts.map (Token.render h)) := by
  induction ts with
  | nil => rfl
  | cons t rest ih =>
    have h1 : t.is_spaceable = false := hall t (by simp)
    have hgap : gap t rest = "" := by
      cases rest <;> simp [gap, separator, h1]
    rw [spaced_cons, hgap, ih (fun x hx => hall x (List.mem_cons_of_mem _ hx))]
    rw [List.map_cons, join_cons]
    simp

theorem spaced_length_all_spaceable {T : Type} (h : T → String) (ts : List (Token T))
    (hne : ts ≠ []) (hall : ∀ t ∈ ts, t.is_spaceable = true) :
    (spaced h ts).length + 1
      = (ts.map (fun t => (t.render h).length)).sum + ts.length := by
  induction ts with
  | nil => exact absurd rfl hne
  | cons t rest ih =>
    cases rest with
    | nil => simp [spaced]
    | cons t' rest =>
      have h1 : t.is_spaceable = true := hall t (by simp)
      have h2 : t'.is_spaceable = true := hall t' (by simp)
      have ih' := ih (by simp) (fun x hx => hall x (List.mem_cons_of_mem _ hx))
      rw [spaced]
      simp only [separator, h1, h2, String.length_append, List.map_cons, List.sum_cons,
        List.length_cons] at ih' ⊢
      have : " ".length = 1 := rfl
      simp at ih' ⊢
      omega


theorem digit_value_digit_char (d : Nat) (hd : d < 16) : digit_value (digit_char d) = d := by
  interval_cases d <;> rfl

theorem digit_char_mem (d : Nat) (hd : d < 16) : digit_char d ∈ "0123456789ABCDEF".data := by
  interval_cases d <;> decide

theorem digit_char_ne_zero (d : Nat) (hpos : 0 < d) (hd : d < 16) : digit_char d ≠ '0' := by
  interval_cases d <;> decide

theorem to_digits_core_parse (base : Nat) (hb : 1 < base) (hb16 : base ≤ 16) (fuel n : Nat)
    (acc : List Char) (hfuel : n < fuel) :
    (to_digits_core base fuel n acc).foldl (fun a c => a * base + digit_value c) 0
      = acc.foldl (fun a c => a * base + digit_value c) n := by
  induction fuel generalizing n acc with
  | zero => omega
  | succ fuel ih =>
    have hmod : n % base < 16 := lt_of_lt_of_le (Nat.mod_lt _ (by omega)) hb16
    rw [to_digits_core]
    split
    · rename_i hdiv
      have hlt : n < base := (Nat.div_eq_zero_iff (by omega : 0 < base)).mp hdiv
      have hval : digit_value (digit_char n) = n := digit_value_digit_char n (by omega)
      simp [List.foldl_cons, Nat.mod_eq_of_lt hlt, hval]
    · rename_i hdiv
      have hge : base ≤ n := by
        by_contra hc
        exact hdiv (Nat.div_eq_of_lt (by omega))
      have hlt : n / base < n := Nat.div_lt_self (by omega) hb
      rw [ih (n / base) _ (by omega)]
      simp [List.foldl_cons, digit_value_digit_char _ hmod, Nat.div_add_mod']

theorem to_digits_core_mem (base : Nat) (hb : 0 < base) (hb16 : base ≤ 16) (fuel n : Nat)
    (acc : List Char) :
    ∀ c ∈ to_digits_core base fuel n acc, c ∈ "0123456789ABCDEF".data ∨ c ∈ acc := by
  induction fuel generalizing n acc with
  | zero => intro c hc; exact Or.inr hc
  | succ fuel ih =>
    have hmod : n % base < 16 := lt_of_lt_of_le (Nat.mod_lt _ hb) hb16
    intro c hc
    rw [to_digits_core] at hc
    split at hc
    · rcases List.mem_cons.mp hc with h | h
      · exact Or.inl (h ▸ digit_char_mem _ hmod)
      · exact Or.inr h
    · rcases ih _ _ c hc with h | h
      · exact Or.inl h
      · rcases List.mem_cons.mp h with h | h
        · exact Or.inl (h ▸ digit_char_mem _ hmod)
        · exact Or.inr h

theorem to_digits_core_head (base : Nat) (hb : 1 < base) (hb16 : base ≤ 16) (fuel n : Nat)
    (acc : List Char) (hfuel : n < fuel) (hn : n ≠ 0) :
    ∃ c rest, to_digits_core base fuel n acc = c :: rest ∧ c ≠ '0' := by
  induction fuel generalizing n acc with
  | zero => omega
  | succ fuel ih =>
    rw [to_digits_core]
    split
    · rename_i hdiv
      have hlt : n < base := (Nat.div_eq_zero_iff (by omega : 0 < base)).mp hdiv
      refine ⟨_, _, rfl, ?_⟩
      rw [Nat.mod_eq_of_lt hlt]
      exact digit_char_ne_zero n (by omega) (by omega)
    · rename_i hdiv
      have hlt : n / base < n := Nat.div_lt_self (by omega) hb
      exact ih (n / base) _ (by omega) hdiv


theorem erase_front_find_first_not_of (s : List Char) (c : Char) :
    erase_front s (find_first_not_of s c) = s.dropWhile (fun x => x == c) := by
  induction s with
  | nil => rfl
  | cons a s ih =>
    by_cases hac : a = c
    · subst hac
      simp only [find_first_not_of, List.findIdx_cons, List.length_cons, bne_self_eq_false,
        cond_false, Nat.add_lt_add_iff_right, List.dropWhile_cons, beq_self_eq_true, if_true]
        at ih ⊢
      rw [← ih]
      split <;> simp [erase_front]
    · have hne : (a != c) = true := by simp [hac]
      simp [find_first_not_of, List.findIdx_cons, hne, hac, erase_front, List.dropWhile_cons]

theorem bitset_to_string_mem (N val : Nat) :
    ∀ c ∈ bitset_to_string N val, c = '0' ∨ c = '1' := by
  induction N with
  | zero => intro c hc; simp [bitset_to_string] at hc
  | succ N ih =>
    intro c hc
    rw [bitset_to_string] at hc
    rcases List.mem_cons.mp hc with h | h
    · subst h
      split <;> simp
    · exact ih c h

theorem bitset_to_string_parse (N val a : Nat) :
    (bitset_to_string N val).foldl (fun a c => a * 2 + digit_value c) a
      = a * 2 ^ N + val % 2 ^ N := by
  induction N generalizing a with
  | zero => simp [bitset_to_string, Nat.mod_one]
  | succ N ih =>
    rw [bitset_to_string, List.foldl_cons, ih, Nat.mod_pow_succ, Nat.testBit_to_div_mod]
    have h2 : val / 2 ^ N % 2 = 0 ∨ val / 2 ^ N % 2 = 1 := by omega
    rcases h2 with h | h
    · have h0 : digit_value '0' = 0 := rfl
      simp [h, h0]
      ring
    · have h1 : digit_value '1' = 1 := rfl
      simp [h, h1]
      ring

theorem parse_dropWhile_zero (base : Nat) (l : List Char) :
    (l.dropWhile (fun x => x == '0')).foldl (fun a c => a * base + digit_value c) 0
      = l.foldl (fun a c => a * base + digit_value c) 0 := by
  induction l with
  | nil => rfl
  | cons a l ih =>
    by_cases ha : a = '0'
    · subst ha
      have h0 : digit_value '0' = 0 := rfl
      simp [List.dropWhile_cons, ih, h0]
    · simp [List.dropWhile_cons, ha]

theorem to_digits_core_eq_digits (base : Nat) (hb : 1 < base) (fuel n : Nat)
    (acc : List Char) (hfuel : n < fuel) (hn : n ≠ 0) :
    to_digits_core base fuel n acc = ((Nat.digits base n).reverse.map digit_char) ++ acc := by
  induction fuel generalizing n acc with
  | zero => omega
  | succ fuel ih =>
    rw [to_digits_core, Nat.digits_def' hb (by omega)]
    split
    · rename_i hdiv
      simp [hdiv]
    · rename_i hdiv
      have hlt : n / base < n := Nat.div_lt_self (by omega) hb
      rw [ih (n / base) _ (by omega) hdiv]
      simp

theorem uprint_helper_hex (i l : Int) : uprint_helper (hex i l) = sprintf_X i := by
  simp [uprint_helper, hex, uart_puts_itoa, itoa, uart_puts]

theorem itoa_radix_two (val : Int) :
    itoa val 2
      = some (if ((bitset_to_string 32 (val % 2 ^ 64).toNat).dropWhile
                (fun x => x == '0')).isEmpty
        then "0"
        else String.mk ((bitset_to_string 32 (val % 2 ^ 64).toNat).dropWhile
                (fun x => x == '0'))) := by
  simp only [itoa, if_true, erase_front_find_first_not_of]
  split <;> rfl

theorem uprint_helper_binary (i l : Int) :
    uprint_helper (binary i l)
      = if ((bitset_to_string 32 (i % 2 ^ 64).toNat).dropWhile (fun x => x == '0')).isEmpty
        then "0"
        else String.mk ((bitset_to_string 32 (i % 2 ^ 64).toNat).dropWhile (fun x => x == '0')) := by
  simp only [uprint_helper, binary, uart_puts_itoa, itoa_radix_two, uart_puts]

theorem toNat_emod_64_32 (i : Int) : (i % 2 ^ 64).toNat % 2 ^ 32 = (i % 2 ^ 32).toNat := by
  omega

theorem parse_binary_text (i l : Int) :
    parse_base 2 (uprint_helper (binary i l)) = (i % 2 ^ 32).toNat := by
  have hp := parse_dropWhile_zero 2 (bitset_to_string 32 (i % 2 ^ 64).toNat)
  rw [bitset_to_string_parse, Nat.zero_mul, Nat.zero_add, toNat_emod_64_32] at hp
  rw [uprint_helper_binary]
  split
  · rename_i hemp
    rw [List.isEmpty_iff] at hemp
    rw [hemp] at hp
    rw [← hp]
    rfl
  · exact hp

theorem bitset_to_string_length (N val : Nat) : (bitset_to_string N val).length = N := by
  induction N with
  | zero => rfl
  | succ N ih => simp [bitset_to_string, ih]

theorem bitset_stripped_length_le_iff (N val k : Nat) :
    ((bitset_to_string N val).dropWhile (fun x => x == '0')).length ≤ k
      ↔ val % 2 ^ N < 2 ^ k := by
  induction N with
  | zero => simp [bitset_to_string, Nat.mod_one, Nat.pos_pow_of_pos]
  | succ N ih =>
    rw [bitset_to_string, Nat.mod_pow_succ, Nat.testBit_to_div_mod]
    have hlt : val % 2 ^ N < 2 ^ N := Nat.mod_lt _ (by positivity)
    have h2 : val / 2 ^ N % 2 = 0 ∨ val / 2 ^ N % 2 = 1 := by omega
    rcases h2 with h | h
    · simp [h, List.dropWhile_cons, ih]
    · simp only [h, decide_True, if_true, List.dropWhile_cons, Nat.mul_one]
      have hne : (('1' : Char) == '0') = false := by decide
      simp only [hne, Bool.false_eq_true, if_false, List.length_cons, bitset_to_string_length]
      constructor
      · intro hk
        calc val % 2 ^ N + 2 ^ N < 2 ^ N + 2 ^ N := by omega
          _ = 2 ^ (N + 1) := by ring
          _ ≤ 2 ^ k := Nat.pow_le_pow_right (by norm_num) hk
      · intro hk
        by_contra hc
        have hkN : k ≤ N := by omega
        have : 2 ^ k ≤ 2 ^ N := Nat.pow_le_pow_right (by norm_num) hkN
        omega

theorem binary_text_length_le_iff (i l : Int) (k : Nat) (hk : 0 < k) :
    (uprint_helper (binary i l)).length ≤ k ↔ (i % 2 ^ 32).toNat < 2 ^ k := by
  have hlen := bitset_stripped_length_le_iff 32 (i % 2 ^ 64).toNat
  rw [toNat_emod_64_32] at hlen
  rw [uprint_helper_binary]
  split
  · rename_i hemp
    rw [List.isEmpty_iff] at hemp
    have h0 := (hlen 0).mp (by rw [hemp]; exact Nat.le_refl _)
    have h1 : (i % 2 ^ 32).toNat = 0 := by omega
    have hpos : 0 < 2 ^ k := by positivity
    have hone : ("0" : String).length = 1 := rfl
    rw [h1, hone]
    omega
  · rw [String.length_mk]
    exact hlen k

theorem binary_text_eq_zero_iff (i l : Int) :
    uprint_helper (binary i l) = "0" ↔ i % 2 ^ 32 = 0 := by
  have hnn : 0 ≤ i % 2 ^ 32 := Int.emod_nonneg _ (by norm_num)
  have hparse := parse_binary_text i l
  constructor
  · intro h0
    rw [h0] at hparse
    have : (i % 2 ^ 32).toNat = 0 := by rw [← hparse]; rfl
    omega
  · intro h0
    have hlen := (bitset_stripped_length_le_iff 32 (i % 2 ^ 64).toNat 0).mpr (by
      rw [toNat_emod_64_32, h0]; decide)
    have hnil : (bitset_to_string 32 (i % 2 ^ 64).toNat).dropWhile (fun x => x == '0') = [] :=
      List.length_eq_zero.mp (by omega)
    rw [uprint_helper_binary, hnil]
    rfl

theorem binary_text_head (i l : Int) (hne : i % 2 ^ 32 ≠ 0) :
    ∃ rest, (uprint_helper (binary i l)).data = '1' :: rest := by
  have hne0 : uprint_helper (binary i l) ≠ "0" := fun h =>
    hne ((binary_text_eq_zero_iff i l).mp h)
  rw [uprint_helper_binary] at hne0 ⊢
  split at hne0
  · exact absurd rfl hne0
  · rename_i hemp
    rw [if_neg hemp]
    have hnil : (bitset_to_string 32 (i % 2 ^ 64).toNat).dropWhile (fun x => x == '0') ≠ [] := by
      simpa [List.isEmpty_iff] using hemp
    have hhead := List.head_dropWhile_not (fun x => x == '0') _ hnil
    rcases hl : (bitset_to_string 32 (i % 2 ^ 64).toNat).dropWhile (fun x => x == '0')
      with _ | ⟨c, rest⟩
    · exact absurd hl hnil
    · have hc : c = '0' ∨ c = '1' :=
        bitset_to_string_mem _ _ c ((List.dropWhile_sublist _).subset (by rw [hl]; simp))
      simp only [hl, List.head_cons] at hhead
      rcases hc with hc | hc
      · subst hc; simp at hhead
      · subst hc; exact ⟨rest, hl⟩

theorem to_digits_zero (base : Nat) : to_digits base 0 = ['0'] := by
  simp [to_digits, to_digits_core, digit_char]

theorem to_digits_eq_digits (base : Nat) (hb : 1 < base) (n : Nat) (hn : n ≠ 0) :
    to_digits base n = (Nat.digits base n).reverse.map digit_char := by
  rw [to_digits, to_digits_core_eq_digits base hb _ _ [] (Nat.lt_succ_self _) hn,
    List.append_nil]

theorem to_digits_length_le_iff (base : Nat) (hb : 1 < base) (n k : Nat) (hk : 0 < k) :
    (to_digits base n).length ≤ k ↔ n < base ^ k := by
  by_cases hn : n = 0
  · subst hn
    rw [to_digits_zero]
    have hpos : 0 < base ^ k := Nat.pos_pow_of_pos _ (by omega)
    simp only [List.length_singleton]
    omega
  · rw [to_digits_eq_digits base hb n hn, List.length_map, List.length_reverse,
      Nat.digits_len base n hb hn, Nat.lt_pow_iff_log_lt hb hn]
    omega

theorem to_digits_pos_length (base : Nat) (hb : 1 < base) (n : Nat) :
    0 < (to_digits base n).length := by
  by_cases hn : n = 0
  · subst hn; rw [to_digits_zero]; simp
  · rw [to_digits_eq_digits base hb n hn, List.length_map, List.length_reverse,
      Nat.digits_len base n hb hn]
    omega

theorem digit_char_mem_decimal (d : Nat) (hd : d < 10) : digit_char d ∈ "0123456789".data := by
  interval_cases d <;> decide

theorem to_digits_mem_decimal (n : Nat) : ∀ c ∈ to_digits 10 n, c ∈ "0123456789".data := by
  intro c hc
  by_cases hn : n = 0
  · subst hn
    rw [to_digits_zero] at hc
    simp at hc
    subst hc
    decide
  · rw [to_digits_eq_digits 10 (by norm_num) n hn] at hc
    rcases List.mem_map.mp hc with ⟨d, hd, rfl⟩
    exact digit_char_mem_decimal d (Nat.digits_lt_base (by norm_num) (List.mem_reverse.mp hd))

theorem to_digits_parse (base : Nat) (hb : 1 < base) (hb16 : base ≤ 16) (n : Nat) :
    parse_base base (String.mk (to_digits base n)) = n := by
  rw [parse_base, to_digits, to_digits_core_parse base hb hb16 _ _ [] (Nat.lt_succ_self _)]
  rfl

theorem to_digits_head (base : Nat) (hb : 1 < base) (hb16 : base ≤ 16) (n : Nat) (hn : n ≠ 0) :
    ∃ c rest, to_digits base n = c :: rest ∧ c ≠ '0' :=
  to_digits_core_head base hb hb16 _ _ [] (Nat.lt_succ_self _) hn

theorem uprint_helper_int (i : Int) : uprint_helper (.int i) = sprintf_d i := by
  simp [uprint_helper, uart_puts_itoa, itoa, uart_puts]

theorem uart_puts_itoa_buf_eq (val radix : Int) :
    uart_puts_itoa_buf val radix
      = if bytes_written (uart_puts_itoa val radix) ≤ buf_size ∧ (itoa val radix).isSome
        then some (uart_puts_itoa val radix) else none := by
  unfold uart_puts_itoa_buf uart_puts_itoa
  cases itoa val radix with
  | none => simp
  | some text => simp [uart_puts]

theorem uprint_helper_buf_int (i : Int) :
    uprint_helper_buf (.int i)
      = if bytes_written (uprint_helper (.int i)) ≤ buf_size
        then some (uprint_helper (.int i)) else none := by
  simp [uprint_helper_buf, uprint_helper, uart_puts_itoa_buf_eq, itoa]

theorem uprint_helper_buf_hex (i l : Int) :
    uprint_helper_buf (hex i l)
      = if bytes_written (uprint_helper (hex i l)) ≤ buf_size
        then some (uprint_helper (hex i l)) else none := by
  simp [uprint_helper_buf, uprint_helper, hex, uart_puts_itoa_buf_eq, itoa]

theorem uprint_helper_buf_binary (i l : Int) :
    uprint_helper_buf (binary i l)
      = if bytes_written (uprint_helper (binary i l)) ≤ buf_size
        then some (uprint_helper (binary i l)) else none := by
  simp [uprint_helper_buf, uprint_helper, binary, uart_puts_itoa_buf_eq, itoa_radix_two]

theorem uprint_helper_buf_some (v : Value) (text : String)
    (h : uprint_helper_buf v = some text) : uprint_helper v = text := by
  induction v generalizing text with
  | cstr cstr => simpa [uprint_helper_buf, uprint_helper] using h
  | int i =>
    rw [uprint_helper_buf_int] at h
    split at h
    · exact Option.some.inj h
    · exact absurd h (by simp)
  | bool b => simpa [uprint_helper_buf, uprint_helper] using h
  | uint32 ul =>
    simp only [uprint_helper_buf] at h
    split at h
    · simpa [uprint_helper] using h
    · exact absurd h (by simp)
  | char c => simpa [uprint_helper_buf, uprint_helper] using h
  | hex value =>
    have := uprint_helper_buf_hex value.i value.length
    simp only [hex] at this
    rw [this] at h
    split at h
    · exact Option.some.inj h
    · exact absurd h (by simp)
  | binary value =>
    have := uprint_helper_buf_binary value.i value.length
    simp only [binary] at this
    rw [this] at h
    split at h
    · exact Option.some.inj h
    · exact absurd h (by simp)
  | units value label ih =>
    simp only [uprint_helper_buf] at h
    split at h
    · rename_i t ht
      rw [uprint_helper, ih t ht]
      exact Option.some.inj h
    · exact absurd h (by simp)

/-- The radix 2 text of a 32-bit `int`, as `itoa` produces it, is the base-2
numeral of `i mod 2^32` without leading zeros.  Whether the `Binary` helper can
store it is a separate matter, see `uprint_helper_buf_binary`. -/
theorem binary_text_canonical (i : Int) (hlo : -2 ^ 31 ≤ i) (hhi : i < 2 ^ 31) :
    (∀ c ∈ (uprint_helper (binary i)).data, c = '0' ∨ c = '1')
      ∧ (parse_base 2 (uprint_helper (binary i)) : Int) = i % 2 ^ 32
      ∧ (uprint_helper (binary i) = "0" ↔ i = 0)
      ∧ (i ≠ 0 → ∃ rest, (uprint_helper (binary i)).data = '1' :: rest)
      ∧ uprint_helper (binary 0) = "0"
      ∧ uprint_helper (binary 4) = "100" := by
  have hnn : 0 ≤ i % 2 ^ 32 := Int.emod_nonneg _ (by norm_num)
  have hparse := parse_binary_text i (-1)
  have hmem : ∀ c ∈ (bitset_to_string 32 (i % 2 ^ 64).toNat).dropWhile (fun x => x == '0'),
      c = '0' ∨ c = '1' := fun c hc =>
    bitset_to_string_mem _ _ c ((List.dropWhile_sublist _).subset hc)
  have hzero : uprint_helper (binary i) = "0" ↔ i = 0 := by
    constructor
    · intro h0
      rw [h0] at hparse
      have : (i % 2 ^ 32).toNat = 0 := by rw [← hparse]; rfl
      omega
    · intro h0
      subst h0
      decide
  refine ⟨?_, ?_, hzero, ?_, by decide, by decide⟩
  · intro c hc
    rw [uprint_helper_binary] at hc
    split at hc
    · simp at hc
      exact Or.inl hc
    · exact hmem c hc
  · rw [hparse]
    exact Int.toNat_of_nonneg hnn
  · intro hne
    have hne0 : uprint_helper (binary i) ≠ "0" := fun h => hne (hzero.mp h)
    rw [uprint_helper_binary] at hne0 ⊢
    split at hne0
    · exact absurd rfl hne0
    · rename_i hemp
      rw [if_neg hemp]
      have hnil : (bitset_to_string 32 (i % 2 ^ 64).toNat).dropWhile (fun x => x == '0') ≠ [] := by
        simpa [List.isEmpty_iff] using hemp
      have hhead := List.head_dropWhile_not (fun x => x == '0') _ hnil
      rcases hl : (bitset_to_string 32 (i % 2 ^ 64).toNat).dropWhile (fun x => x == '0')
        with _ | ⟨c, rest⟩
      · exact absurd hl hnil
      · have hc := hmem c (by rw [hl]; simp)
        simp only [hl, List.head_cons] at hhead
        rcases hc with hc | hc
        · subst hc; simp at hhead
        · subst hc; exact ⟨rest, hl⟩

/-- The radix 10 text of an `int`, as `itoa` produces it, is its canonical
decimal numeral.  Whether the `int` helper can store it is a separate matter,
see `uprint_helper_buf_int`. -/
theorem int_text_canonical (i : Int) :
    (∃ ds : List Char,
        (uprint_helper (.int i)).data = (if i < 0 then '-' :: ds else ds)
          ∧ (∀ c ∈ ds, c ∈ "0123456789".data)
          ∧ (i = 0 → ds = ['0'])
          ∧ (i ≠ 0 → ds = (Nat.digits 10 i.natAbs).reverse.map digit_char
              ∧ ∃ c rest, ds = c :: rest ∧ c ≠ '0')
          ∧ parse_base 10 (String.mk ds) = i.natAbs)
      ∧ ((uprint_helper (.int i)).data.head? = some '-' ↔ i < 0)
      ∧ parse_signed_decimal (uprint_helper (.int i)) = i
      ∧ uprint_helper (.int 0) = "0"
      ∧ uprint_helper (.int (-2147483648)) = "-2147483648"
      ∧ uprint [.spaceable (.int 1)] = "1\n" := by
  have hminus : '-' ∉ "0123456789".data := by decide
  have hdigits : ∀ n : Nat, ∃ c rest, to_digits 10 n = c :: rest ∧ c ≠ '-' := by
    intro n
    rcases hl : to_digits 10 n with _ | ⟨c, rest⟩
    · have := to_digits_pos_length 10 (by norm_num) n
      rw [hl] at this
      simp at this
    · refine ⟨c, rest, rfl, fun hc => hminus ?_⟩
      rw [← hc]
      exact to_digits_mem_decimal n c (by rw [hl]; simp)
  refine ⟨?_, ?_, ?_, by decide, by decide, by decide⟩
  · by_cases hneg : i < 0
    · refine ⟨to_digits 10 (-i).toNat, ?_, to_digits_mem_decimal _, fun h0 => by omega, ?_, ?_⟩
      · rw [uprint_helper_int, sprintf_d, if_pos hneg, if_pos hneg]
      · intro _
        have habs : (-i).toNat = i.natAbs := by omega
        rw [habs]
        exact ⟨to_digits_eq_digits 10 (by norm_num) _ (by omega),
          to_digits_head 10 (by norm_num) (by norm_num) _ (by omega)⟩
      · rw [to_digits_parse 10 (by norm_num) (by norm_num)]
        omega
    · refine ⟨to_digits 10 i.toNat, ?_, to_digits_mem_decimal _, ?_, ?_, ?_⟩
      · rw [uprint_helper_int, sprintf_d, if_neg hneg, if_neg hneg]
      · intro h0
        subst h0
        exact to_digits_zero 10
      · intro hne
        have habs : i.toNat = i.natAbs := by omega
        rw [habs]
        exact ⟨to_digits_eq_digits 10 (by norm_num) _ (by omega),
          to_digits_head 10 (by norm_num) (by norm_num) _ (by omega)⟩
      · rw [to_digits_parse 10 (by norm_num) (by norm_num)]
        omega
  · rw [uprint_helper_int, sprintf_d]
    by_cases hneg : i < 0
    · simp [hneg]
    · rcases hdigits i.toNat with ⟨c, rest, hl, hc⟩
      simp [hneg, hl, hc]
  · rw [uprint_helper_int, sprintf_d]
    by_cases hneg : i < 0
    · rw [if_pos hneg]
      simp only [parse_signed_decimal]
      rw [to_digits_parse 10 (by norm_num) (by norm_num)]
      omega
    · rw [if_neg hneg]
      rcases hdigits i.toNat with ⟨c, rest, hl, hc⟩
      have hparse := to_digits_parse 10 (by norm_num) (by norm_num) i.toNat
      unfold parse_signed_decimal
      split
      · rename_i ds hds
        simp only [hl] at hds
        exact absurd (List.cons.inj hds).1 hc
      · rw [hparse]
        omega

theorem int_text_bytes_le_iff (i : Int) :
    bytes_written (uprint_helper (.int i)) ≤ buf_size ↔ -99999999 ≤ i ∧ i ≤ 999999999 := by
  rw [uprint_helper_int, sprintf_d]
  simp only [bytes_written, buf_size]
  by_cases hneg : i < 0
  · rw [if_pos hneg, String.length_mk, List.length_cons]
    have h8 := to_digits_length_le_iff 10 (by norm_num) (-i).toNat 8 (by norm_num)
    constructor
    · intro h
      have := h8.mp (by omega)
      omega
    · intro h
      have := h8.mpr (by omega)
      omega
  · rw [if_neg hneg, String.length_mk]
    have h9 := to_digits_length_le_iff 10 (by norm_num) i.toNat 9 (by norm_num)
    constructor
    · intro h
      have := h9.mp (by omega)
      omega
    · intro h
      have := h9.mpr (by omega)
      omega

theorem binary_text_bytes_le_iff (i : Int) (hlo : -2 ^ 31 ≤ i) (hhi : i < 2 ^ 31) :
    bytes_written (uprint_helper (binary i)) ≤ buf_size ↔ 0 ≤ i ∧ i ≤ 511 := by
  have h9 := binary_text_length_le_iff i (-1) 9 (by norm_num)
  change (uprint_helper (binary i)).length ≤ 9 ↔ _ at h9
  simp only [bytes_written, buf_size]
  constructor
  · intro h
    have := h9.mp (by omega)
    omega
  · intro h
    have := h9.mpr (by omega)
    omega

/-! ## The claims -/

/-- C1: for every token sequence, the text emitted by `UartLogger::operator()`
is the renderings in order, with a single space between two neighbours exactly
when both are Spaceable, nothing after the last token, and then the line
terminator. -/
theorem operator_call_spacing_rule {T : Type} (helper : T → String)
    (ts : List (Token T)) :
    UartLogger.operator_call helper ts = spaced helper ts ++ "\n" :=
  operator_call_eq_spaced helper ts

/-- C2: for every token sequence, the pairwise recursive overload set emits the
same text as the linear `needs_space` loop. -/
theorem operator_call_eq_needs_space_loop {T : Type} (helper : T → String)
    (ts : List (Token T)) :
    UartLogger.operator_call helper ts = needs_space_loop helper ts := by
  have h := needs_space_foldl helper ts "" false
  simp only [Bool.false_and, Bool.false_eq_true, if_false, String.append_empty,
    String.empty_append] at h
  rw [needs_space_loop, h]

/-- C3: an Unspaced token between two sequences contributes its rendering with
no space on either side and leaves both line bodies as they are; the source's
test `("[", unspaced(304), "]")` gives `"[304]\n"`. -/
theorem unspaced_splits_body {T : Type} (helper : T → String)
    (xs ys : List (Token T)) (u : Unspaced T) :
    body (UartLogger.operator_call helper (xs ++ [Token.unspaced u] ++ ys))
        = body (UartLogger.operator_call helper xs) ++ helper u.held
            ++ body (UartLogger.operator_call helper ys)
      ∧ uprint [.spaceable (.cstr "["), unspaced (.int 304), .spaceable (.cstr "]")]
        = "[304]\n" := by
  refine ⟨?_, by decide⟩
  simp only [operator_call_eq_spaced, body_append_newline, List.append_assoc,
    List.singleton_append, spaced_unspaced_between]

/-- C4, as stated, fails: the Unspaced `2` also suppresses the space after
itself, so `(1, Unspaced(2), 3)` does not render as `"12 3\n"`. -/
theorem one_unspaced_two_three_not_spaced :
    uprint [.spaceable (.int 1), unspaced (.int 2), .spaceable (.int 3)] ≠ "12 3\n" := by
  decide

/-- C4, amended: the sequence `(1, Unspaced(2), 3)` renders as `"123\n"`. -/
theorem one_unspaced_two_three :
    uprint [.spaceable (.int 1), unspaced (.int 2), .spaceable (.int 3)] = "123\n" := by
  decide

/-- C5: for a non-empty sequence of Spaceable tokens the output is the
renderings joined by single spaces, then the terminator; its length is that of
the renderings plus `n - 1` spaces plus the terminator. -/
theorem all_spaceable_joined_by_spaces {T : Type} (helper : T → String)
    (ts : List (Token T)) (hne : ts ≠ [])
    (hall : ∀ t ∈ ts, t.is_spaceable = true) :
    UartLogger.operator_call helper ts
        = " ".intercalate (ts.map (Token.render helper)) ++ "\n"
      ∧ (UartLogger.operator_call helper ts).length
        = (ts.map (fun t => (t.render helper).length)).sum + (ts.length - 1) + 1 := by
  have hlen := spaced_length_all_spaceable helper ts hne hall
  have hpos : 0 < ts.length := List.length_pos.mpr hne
  refine ⟨?_, ?_⟩
  · rw [operator_call_eq_spaced, spaced_all_spaceable helper ts hall]
  · rw [operator_call_eq_spaced, String.length_append]
    have h1 : "\n".length = 1 := rfl
    omega

/-- Witness of C5 at the source's test `uprint_str(1, 2)`, which gives `"1 2\n"`. -/
theorem all_spaceable_joined_by_spaces_witness :
    uprint [.spaceable (.int 1), .spaceable (.int 2)] = "1 2\n"
      ∧ (uprint [.spaceable (.int 1), .spaceable (.int 2)]).length = (1 + 1) + (2 - 1) + 1 :=
  all_spaceable_joined_by_spaces uprint_helper
    [.spaceable (.int 1), .spaceable (.int 2)] (List.cons_ne_nil _ _) (by decide)

/-- C6: for a sequence of Unspaced tokens of any length the output is the plain
concatenation of the renderings of the held values, then the terminator. -/
theorem all_unspaced_concatenated {T : Type} (helper : T → String)
    (ts : List (Token T)) (hall : ∀ t ∈ ts, t.is_spaceable = false) :
    UartLogger.operator_call helper ts
      = String.join (ts.map (Token.render helper)) ++ "\n" := by
  rw [operator_call_eq_spaced, spaced_all_unspaced helper ts hall]

/-- Witness of C6 at the source's tests `(comma, comma)` and `(comma, comma, comma)`. -/
theorem all_unspaced_concatenated_witness :
    uprint [comma, comma] = ", , \n" ∧ uprint [comma, comma, comma] = ", , , \n" :=
  ⟨all_unspaced_concatenated uprint_helper [comma, comma] (by decide),
   all_unspaced_concatenated uprint_helper [comma, comma, comma] (by decide)⟩

/-- C7: a call with no token emits exactly the terminator. -/
theorem no_token_emits_newline {T : Type} (helper : T → String) :
    UartLogger.operator_call helper [] = "\n" ∧ uprint [] = "\n" :=
  ⟨rfl, rfl⟩

/-- C8: a call with a single token, Spaceable or Unspaced, emits the
rendering of its value and the terminator, nothing else; the source's test
`uprint_str(1)` gives `"1\n"`. -/
theorem single_token_emits_rendering {T : Type} (helper : T → String) (t : Token T) :
    UartLogger.operator_call helper [t] = t.render helper ++ "\n"
      ∧ uprint [.spaceable (.int 1)] = "1\n" := by
  refine ⟨?_, by decide⟩
  cases t <;> rfl

/-- C9: for every `int` `i` the text of `Hex(i)` is the base-16 numeral of
`i mod 2^32`: its characters are among `0`-`9`, `A`-`F`; read in base 16 it
yields `i mod 2^32`; it is `"0"` when that value is zero and otherwise starts
with a non-zero digit, being the digits of the value, most significant first.
`Hex(0)` renders `"0"` and `Hex(10)` renders `"A"`. -/
theorem hex_renders_unsigned_base16 (i : Int) :
    (∀ c ∈ (uprint_helper (hex i)).data, c ∈ "0123456789ABCDEF".data)
      ∧ (parse_base 16 (uprint_helper (hex i)) : Int) = i % 2 ^ 32
      ∧ (i % 2 ^ 32 = 0 → uprint_helper (hex i) = "0")
      ∧ (i % 2 ^ 32 ≠ 0 →
          (∃ c rest, (uprint_helper (hex i)).data = c :: rest ∧ c ≠ '0')
          ∧ (uprint_helper (hex i)).data
              = (Nat.digits 16 (i % 2 ^ 32).toNat).reverse.map digit_char)
      ∧ uprint_helper (hex 0) = "0"
      ∧ uprint_helper (hex 10) = "A" := by
  have hnn : 0 ≤ i % 2 ^ 32 := Int.emod_nonneg _ (by norm_num)
  refine ⟨?_, ?_, ?_, ?_, by decide, by decide⟩
  · intro c hc
    rw [uprint_helper_hex] at hc
    rcases to_digits_core_mem 16 (by norm_num) (le_refl _) _ _ [] c hc with h | h
    · exact h
    · simp at h
  · rw [uprint_helper_hex, parse_base, sprintf_X, to_digits,
      to_digits_core_parse 16 (by norm_num) (le_refl _) _ _ [] (Nat.lt_succ_self _)]
    simp only [List.foldl_nil]
    exact Int.toNat_of_nonneg hnn
  · intro h0
    rw [uprint_helper_hex, sprintf_X, h0]
    rfl
  · intro hne
    have hn : (i % 2 ^ 32).toNat ≠ 0 := by omega
    rw [uprint_helper_hex, sprintf_X, to_digits]
    refine ⟨to_digits_core_head 16 (by norm_num) (le_refl _) _ _ [] (Nat.lt_succ_self _) hn, ?_⟩
    rw [to_digits_core_eq_digits 16 (by norm_num) _ _ [] (Nat.lt_succ_self _) hn]
    simp

/-- C10 (code defect): the `Binary` helper hands `itoa` a 10-byte buffer.  At
`Binary(-3)` the text has 32 digits, so 33 bytes are stored and the call has no
defined behaviour; for a 32-bit `i` this happens exactly outside `0 .. 511`
(`Binary(512)` stores 11 bytes).  Inside `0 .. 511` the helper prints the
base-2 numeral of `i` without leading zeros. -/
theorem binary_helper_overflows_buffer :
    itoa (-3) 2 = some "11111111111111111111111111111101"
      ∧ bytes_written "11111111111111111111111111111101" = 33
      ∧ buf_size = 10
      ∧ uprint_helper_buf (binary (-3)) = none
      ∧ uprint_helper_buf (binary 512) = none
      ∧ uprint_helper_buf (binary 511) = some "111111111"
      ∧ (∀ i : Int, -2 ^ 31 ≤ i → i < 2 ^ 31 →
          (uprint_helper_buf (binary i) = none ↔ i < 0 ∨ 511 < i))
      ∧ (∀ i : Int, 0 ≤ i → i ≤ 511 →
          ∃ text, uprint_helper_buf (binary i) = some text
            ∧ (∀ c ∈ text.data, c = '0' ∨ c = '1')
            ∧ (parse_base 2 text : Int) = i
            ∧ (text = "0" ↔ i = 0)
            ∧ (i ≠ 0 → ∃ rest, text.data = '1' :: rest)) := by
  refine ⟨by decide, by decide, rfl, by decide, by decide, by decide, ?_, ?_⟩
  · intro i hlo hhi
    have hfit := binary_text_bytes_le_iff i hlo hhi
    rw [uprint_helper_buf_binary]
    split
    · rename_i h
      have := hfit.mp h
      constructor
      · intro hc
        exact absurd hc (by simp)
      · intro hc
        omega
    · rename_i h
      constructor
      · intro _
        by_contra hc
        exact h (hfit.mpr (by omega))
      · intro _
        rfl
  · intro i h0 h511
    have hfit := (binary_text_bytes_le_iff i (by omega) (by omega)).mpr ⟨h0, h511⟩
    have hcanon := binary_text_canonical i (by omega) (by omega)
    have hmod : i % 2 ^ 32 = i := Int.emod_eq_of_lt h0 (by omega)
    refine ⟨uprint_helper (binary i), ?_, hcanon.1, ?_, hcanon.2.2.1, hcanon.2.2.2.1⟩
    · rw [uprint_helper_buf_binary, if_pos hfit]
    · rw [hcanon.2.1, hmod]

/-- C11: the text of `Units(v, l)` is the text of `v` immediately followed by
`l`, and after a Spaceable token it is spaced as one Spaceable token; the
source's test `("Current:", units(5, "mA"))` gives `"Current: 5mA\n"`. -/
theorem units_renders_value_then_label (v : Value) (l : String) (a : Value) :
    uprint_helper (units v l) = uprint_helper v ++ l
      ∧ uprint [.spaceable a, .spaceable (units v l)]
        = uprint_helper a ++ " " ++ uprint_helper v ++ l ++ "\n"
      ∧ uprint [.spaceable (.cstr "Current:"), .spaceable (units (.int 5) "mA")]
        = "Current: 5mA\n" := by
  have hu : uprint_helper (units v l) = uprint_helper v ++ l := by
    simp [units, uprint_helper, uprint_helper_cstr, uart_puts]
  refine ⟨hu, ?_, by decide⟩
  rw [uprint, operator_call_eq_spaced]
  simp only [spaced, Token.render, separator, Token.is_spaceable, Bool.and_self, if_true, hu,
    String.append_assoc]

/-- C12: `nospace` contributes no text and no space on either side: the output
of `xs ++ [nospace] ++ ys` is the body of `xs`, the body of `ys` and the
terminator; the source's tests `(1, nospace, 2)` and `(1, nospace, 2, 3)` give
`"12\n"` and `"12 3\n"`. -/
theorem nospace_contributes_nothing (xs ys : List (Token Value)) :
    uprint (xs ++ [nospace] ++ ys) = body (uprint xs) ++ body (uprint ys) ++ "\n"
      ∧ uprint [.spaceable (.int 1), nospace, .spaceable (.int 2)] = "12\n"
      ∧ uprint [.spaceable (.int 1), nospace, .spaceable (.int 2), .spaceable (.int 3)]
        = "12 3\n" := by
  refine ⟨?_, by decide, by decide⟩
  have hempty : uprint_helper (Value.cstr "") = "" := rfl
  simp only [uprint, nospace, operator_call_eq_spaced, body_append_newline, List.append_assoc,
    List.singleton_append, spaced_unspaced_between, hempty, String.append_empty]

/-- C13: `comma` contributes exactly `", "` and gets no space on either side:
between two Spaceable values the output is the first text, `", "`, the second
text and the terminator; the source's test `("Foo", comma, "Bar")` gives
`"Foo, Bar\n"`. -/
theorem comma_contributes_comma_space (a b : Value) :
    Token.render uprint_helper comma = ", "
      ∧ uprint [.spaceable a, comma, .spaceable b]
        = uprint_helper a ++ ", " ++ uprint_helper b ++ "\n"
      ∧ uprint [.spaceable (.cstr "Foo"), comma, .spaceable (.cstr "Bar")] = "Foo, Bar\n" := by
  refine ⟨rfl, ?_, by decide⟩
  have hcomma : uprint_helper (Value.cstr ", ") = ", " := rfl
  rw [uprint, operator_call_eq_spaced]
  simp only [comma, spaced, Token.render, separator, Token.is_spaceable, Bool.and_false,
    Bool.false_and, Bool.false_eq_true, if_false, hcomma, String.append_assoc,
    String.empty_append]

/-- C14 (code defect): the `int` helper hands `itoa` a 10-byte buffer.  At
`-2147483648` the text has 11 characters, so 12 bytes are stored and the call
has no defined behaviour; this happens exactly outside
`-99999999 .. 999999999` (`1000000000` stores 11 bytes).  Inside that range
the helper prints the canonical decimal numeral of `i`. -/
theorem int_helper_overflows_buffer :
    itoa (-2147483648) 10 = some "-2147483648"
      ∧ bytes_written "-2147483648" = 12
      ∧ buf_size = 10
      ∧ uprint_helper_buf (.int (-2147483648)) = none
      ∧ uprint_helper_buf (.int 1000000000) = none
      ∧ uprint_helper_buf (.int 999999999) = some "999999999"
      ∧ uprint_helper_buf (.int (-99999999)) = some "-99999999"
      ∧ (∀ i : Int, uprint_helper_buf (.int i) = none ↔ i < -99999999 ∨ 999999999 < i)
      ∧ (∀ i : Int, -99999999 ≤ i → i ≤ 999999999 →
          ∃ text, uprint_helper_buf (.int i) = some text
            ∧ (∃ ds : List Char,
                text.data = (if i < 0 then '-' :: ds else ds)
                  ∧ (∀ c ∈ ds, c ∈ "0123456789".data)
                  ∧ (i = 0 → ds = ['0'])
                  ∧ (i ≠ 0 → ds = (Nat.digits 10 i.natAbs).reverse.map digit_char
                      ∧ ∃ c rest, ds = c :: rest ∧ c ≠ '0')
                  ∧ parse_base 10 (String.mk ds) = i.natAbs)
            ∧ parse_signed_decimal text = i) := by
  refine ⟨by decide, by decide, rfl, by decide, by decide, by decide, by decide, ?_, ?_⟩
  · intro i
    have hfit := int_text_bytes_le_iff i
    rw [uprint_helper_buf_int]
    split
    · rename_i h
      have := hfit.mp h
      constructor
      · intro hc
        exact absurd hc (by simp)
      · intro hc
        omega
    · rename_i h
      constructor
      · intro _
        by_contra hc
        exact h (hfit.mpr (by omega))
      · intro _
        rfl
  · intro i hlo hhi
    have hfit := (int_text_bytes_le_iff i).mpr ⟨hlo, hhi⟩
    have hcanon := int_text_canonical i
    refine ⟨uprint_helper (.int i), ?_, hcanon.1, hcanon.2.2.1⟩
    rw [uprint_helper_buf_int, if_pos hfit]

/-- C15: a boolean renders as the literal `"true"` or `"false"`, never as the
text of the integer 1 or 0; the source's test `(true, false)` gives
`"true false\n"`. -/
theorem bool_renders_literal (b : Bool) :
    uprint_helper (.bool b) = (if b then "true" else "false")
      ∧ uprint_helper (.bool b) ≠ uprint_helper (.int 1)
      ∧ uprint_helper (.bool b) ≠ uprint_helper (.int 0)
      ∧ uprint [.spaceable (.bool true), .spaceable (.bool false)] = "true false\n" := by
  cases b <;> decide

/-- C16: `itoa(val, radix)` ends in the assertion failure exactly when `radix`
is none of 2, 10, 16, and for each of these three it produces a text for
every `val`. -/
theorem itoa_fails_iff_unsupported_radix (val radix : Int) :
    (itoa val radix = none ↔ radix ≠ 2 ∧ radix ≠ 10 ∧ radix ≠ 16)
      ∧ (∃ text, itoa val 2 = some text)
      ∧ (∃ text, itoa val 10 = some text)
      ∧ (∃ text, itoa val 16 = some text) := by
  refine ⟨?_, ⟨_, itoa_radix_two val⟩, ⟨sprintf_d val, by simp [itoa]⟩,
    ⟨sprintf_X val, by simp [itoa]⟩⟩
  by_cases h2 : radix = 2
  · subst h2
    simp [itoa_radix_two]
  · by_cases h10 : radix = 10
    · subst h10
      simp [itoa]
    · by_cases h16 : radix = 16
      · subst h16
        simp [itoa]
      · simp [itoa, h2, h10, h16]

/-- C17: the `length` field of `Hex` and `Binary` has no influence on the text:
any two lengths give the same text, and for any length a non-zero value starts
with a non-zero digit, so no padding is produced. -/
theorem length_field_never_consulted (i l1 l2 : Int) :
    uprint_helper (hex i l1) = uprint_helper (hex i l2)
      ∧ uprint_helper (binary i l1) = uprint_helper (binary i l2)
      ∧ (i % 2 ^ 32 ≠ 0 → ∃ c rest, (uprint_helper (hex i l1)).data = c :: rest ∧ c ≠ '0')
      ∧ (i % 2 ^ 32 ≠ 0 → ∃ rest, (uprint_helper (binary i l1)).data = '1' :: rest)
      ∧ (i % 2 ^ 32 = 0 → uprint_helper (hex i l1) = "0" ∧ uprint_helper (binary i l1) = "0")
      ∧ uprint_helper (hex 10 8) = "A"
      ∧ uprint_helper (binary 4 8) = "100" := by
  refine ⟨?_, ?_, ?_, binary_text_head i l1, ?_, by decide, by decide⟩
  · rw [uprint_helper_hex, uprint_helper_hex]
  · rw [uprint_helper_binary, uprint_helper_binary]
  · intro hne
    rw [uprint_helper_hex, sprintf_X]
    exact to_digits_head 16 (by norm_num) (le_refl _) _ (by omega)
  · intro h0
    refine ⟨?_, (binary_text_eq_zero_iff i l1).mpr h0⟩
    rw [uprint_helper_hex, sprintf_X, h0]
    rfl

/-- C18: the text `itoa` writes into the 10-byte buffer of the `Binary` helper,
with its terminator, fits exactly when `0 ≤ i ≤ 511`; for a negative 32-bit `i`
the text has 32 digits, so 33 bytes are written. -/
theorem binary_buffer_undersized (i : Int) (hlo : -2 ^ 31 ≤ i) (hhi : i < 2 ^ 31) :
    itoa i 2 = some (uprint_helper (binary i))
      ∧ (bytes_written (uprint_helper (binary i)) ≤ buf_size ↔ 0 ≤ i ∧ i ≤ 511)
      ∧ (i < 0 → (uprint_helper (binary i)).length = 32
          ∧ bytes_written (uprint_helper (binary i)) = 33) := by
  refine ⟨?_, ?_, ?_⟩
  · rw [itoa_radix_two, uprint_helper_binary]
  · have h9 := binary_text_length_le_iff i (-1) 9 (by norm_num)
    change (uprint_helper (binary i)).length ≤ 9 ↔ _ at h9
    simp only [bytes_written, buf_size]
    constructor
    · intro h
      have := h9.mp (by omega)
      omega
    · intro h
      have := h9.mpr (by omega)
      omega
  · intro hneg
    have h32 := (binary_text_length_le_iff i (-1) 32 (by norm_num)).mpr (by omega)
    have h31 := binary_text_length_le_iff i (-1) 31 (by norm_num)
    change (uprint_helper (binary i)).length ≤ 32 at h32
    change (uprint_helper (binary i)).length ≤ 31 ↔ _ at h31
    have hge : ¬ (uprint_helper (binary i)).length ≤ 31 := fun h => by
      have := h31.mp h
      omega
    simp only [bytes_written]
    omega

/-- Witness of C18 at `i = -1`, where the text is 32 ones. -/
theorem binary_buffer_undersized_witness :
    itoa (-1) 2 = some (uprint_helper (binary (-1)))
      ∧ (bytes_written (uprint_helper (binary (-1))) ≤ buf_size
          ↔ 0 ≤ (-1 : Int) ∧ (-1 : Int) ≤ 511)
      ∧ ((-1 : Int) < 0 → (uprint_helper (binary (-1))).length = 32
          ∧ bytes_written (uprint_helper (binary (-1))) = 33) :=
  binary_buffer_undersized (-1) (by decide) (by decide)

/-- C19: the decimal text `itoa` writes into the 10-byte buffer of the `int`
helper, with its terminator, fits exactly when `-99999999 ≤ i ≤ 999999999`;
`1000000000` takes 11 bytes and `-2147483648` takes 12. -/
theorem int_buffer_fits_iff (i : Int) :
    itoa i 10 = some (uprint_helper (.int i))
      ∧ (bytes_written (uprint_helper (.int i)) ≤ buf_size
          ↔ -99999999 ≤ i ∧ i ≤ 999999999)
      ∧ bytes_written (uprint_helper (.int 1000000000)) = 11
      ∧ bytes_written (uprint_helper (.int (-2147483648))) = 12 := by
  refine ⟨?_, ?_, by decide, by decide⟩
  · rw [uprint_helper_int]
    simp [itoa]
  · rw [uprint_helper_int, sprintf_d]
    simp only [bytes_written, buf_size]
    by_cases hneg : i < 0
    · rw [if_pos hneg, String.length_mk, List.length_cons]
      have h8 := to_digits_length_le_iff 10 (by norm_num) (-i).toNat 8 (by norm_num)
      constructor
      · intro h
        have := h8.mp (by omega)
        omega
      · intro h
        have := h8.mpr (by omega)
        omega
    · rw [if_neg hneg, String.length_mk]
      have h9 := to_digits_length_le_iff 10 (by norm_num) i.toNat 9 (by norm_num)
      constructor
      · intro h
        have := h9.mp (by omega)
        omega
      · intro h
        have := h9.mpr (by omega)
        omega

/-- C20: the text `itoa` writes for `Hex(i)` has between 1 and 8 characters and
no sign, so with its terminator it always fits the 10-byte buffer of the `Hex`
helper. -/
theorem hex_always_fits_buffer (i : Int) :
    itoa i 16 = some (uprint_helper (hex i))
      ∧ 1 ≤ (uprint_helper (hex i)).length
      ∧ (uprint_helper (hex i)).length ≤ 8
      ∧ '-' ∉ (uprint_helper (hex i)).data
      ∧ bytes_written (uprint_helper (hex i)) ≤ buf_size
      ∧ uprint_helper (hex (-1)) = "FFFFFFFF" := by
  have hnn : 0 ≤ i % 2 ^ 32 := Int.emod_nonneg _ (by norm_num)
  have hlt : i % 2 ^ 32 < 2 ^ 32 := Int.emod_lt_of_pos _ (by norm_num)
  have h1 : 1 ≤ (uprint_helper (hex i)).length := by
    rw [uprint_helper_hex, sprintf_X, String.length_mk]
    exact to_digits_pos_length 16 (by norm_num) _
  have h8 : (uprint_helper (hex i)).length ≤ 8 := by
    rw [uprint_helper_hex, sprintf_X, String.length_mk]
    exact (to_digits_length_le_iff 16 (by norm_num) _ 8 (by norm_num)).mpr (by omega)
  refine ⟨?_, h1, h8, ?_, ?_, by decide⟩
  · rw [uprint_helper_hex]
    simp [itoa]
  · intro hmem
    rw [uprint_helper_hex, sprintf_X] at hmem
    rcases to_digits_core_mem 16 (by norm_num) (le_refl _) _ _ [] _ hmem with h | h
    · exact absurd h (by decide)
    · simp at h
  · simp only [bytes_written, buf_size]
    omega

end Uprint
